import Mathlib

/-!
Verification of the PST reader's specification against its code.

The repository's visible code is the Python demo
`crates/pst-python/py_examples/example.py`; the demo-layer definitions
are embedded directly from it.  The engine components (BTreeIndex,
BlockReader, HeapOnNode, TableContext, NamedPropertyMap, NodeStore)
are not present in the source tree, so their definitions are modelled
from the specification text, as marked in their doc comments.

The file is laid out as definitions first, then theorems.
-/

namespace Pst

/-! ## Definitions: demo layer (example.py) -/

/-- Embeds Python `s.replace('0x', '')` (example.py line 72): removes
every non-overlapping occurrence of the two-character substring `0x`,
scanning left to right. -/
def replace0x : List Char → List Char
  | [] => []
  | [c] => [c]
  | c :: c2 :: rest =>
    if c == '0' && c2 == 'x' then replace0x rest
    else c :: replace0x (c2 :: rest)

/-- Embeds Python `s.replace('0X', '')` (example.py line 72): removes
every non-overlapping occurrence of the two-character substring `0X`,
scanning left to right. -/
def replace0X : List Char → List Char
  | [] => []
  | [c] => [c]
  | c :: c2 :: rest =>
    if c == '0' && c2 == 'X' then replace0X rest
    else c :: replace0X (c2 :: rest)

/-- Embeds example.py line 72:
`node_id_hex = node_id_str.replace('0x', '').replace('0X', '')`. -/
def nodeIdHex (s : List Char) : List Char := replace0X (replace0x s)

/-- `true` iff the string contains `0x` as a substring. -/
def has0x : List Char → Bool
  | [] => false
  | [_] => false
  | c :: c2 :: rest => (c == '0' && c2 == 'x') || has0x (c2 :: rest)

/-- `true` iff the string contains `0X` as a substring. -/
def has0X : List Char → Bool
  | [] => false
  | [_] => false
  | c :: c2 :: rest => (c == '0' && c2 == 'X') || has0X (c2 :: rest)

/-- A row of a hierarchy/contents table as the demo sees it: the
optional `id` cell, and whether opening/exploring the referenced
node raises an exception. -/
structure DemoRow where
  id : Option Nat
  raises : Bool

/-- Embeds the demo's per-table row loop (example.py lines 109-121 and
130-141): for each row, a missing `id` skips the row; an exception
from `open_folder`/`open_message` or the recursive exploration is
caught by the per-row `except` and the counter is not incremented;
otherwise the counter is incremented.  Returns the final counter. -/
def exploreRows : List DemoRow → Nat
  | [] => 0
  | r :: rest =>
    match r.id with
    | none => exploreRows rest
    | some _ => if r.raises then exploreRows rest else exploreRows rest + 1

/-- A Python value as the demo's subject-formatting code observes it:
its truthiness and the result of `str(...)`. -/
structure PyVal where
  truthy : Bool
  toStr : List Char

/-- Embeds example.py lines 158-164: start from `"(no subject)"`;
if `props_dict.get('0x0037')` is present and truthy, take its string
form, truncating to the first 60 characters plus `"..."` when longer
than 60. -/
def formatSubject (subjectProp : Option PyVal) : List Char :=
  match subjectProp with
  | none => String.toList "(no subject)"
  | some v =>
    if v.truthy then
      if v.toStr.length > 60 then v.toStr.take 60 ++ String.toList "..."
      else v.toStr
    else String.toList "(no subject)"

/-! ## Definitions: NodeStore façade / EntryId (spec §4.8, §6) -/

/-- Modelled from the spec (§6): the EntryId external representation,
`{4 reserved bytes, 16-byte GUID, payload encoding a NodeId}`.  The
GUID is abstracted to a single number; the payload is the NodeId's
little-endian byte encoding.  The engine's EntryId type is not in the
source tree. -/
structure EntryId where
  reserved : List Nat
  guid : Nat
  payload : List Nat

/-- Modelled from the spec (§6): the part of the file header the
façade needs, the store's GUID. -/
structure StoreHeader where
  storeGuid : Nat

inductive ResolveError where
  | foreignEntryId
deriving DecidableEq

/-- Little-endian 4-byte encoding of a 32-bit NodeId. -/
def encodeLE32 (n : Nat) : List Nat :=
  [n % 256, n / 256 % 256, n / 65536 % 256, n / 16777216 % 256]

/-- Little-endian byte decoding. -/
def decodeLE : List Nat → Nat
  | [] => 0
  | b :: rest => b + 256 * decodeLE rest

/-- Modelled from the spec (§3, §6): the EntryId derived from a NodeId
of a store carries that store's GUID and the NodeId's encoding. -/
def entryIdOfNode (storeGuid nodeId : Nat) : EntryId :=
  ⟨[0, 0, 0, 0], storeGuid, encodeLE32 nodeId⟩

/-- Modelled from the spec (§4.8): `resolveEntryId` validates the
embedded GUID against the open store's GUID, failing with
`ForeignEntryIdError` on mismatch, and otherwise extracts the NodeId
from the payload.  The engine's implementation is not in the source
tree. -/
def resolveEntryId (store : StoreHeader) (e : EntryId) : Except ResolveError Nat :=
  if e.guid = store.storeGuid then .ok (decodeLE e.payload)
  else .error .foreignEntryId

/-! ## Definitions: BlockReader (spec §4.3) -/

/-- A block's content: either a data block's payload bytes, or an
internal chain block listing the subsequent block ids. -/
inductive BlockContent where
  | data (bytes : List Nat)
  | chain (ids : List Nat)
deriving DecidableEq

/-- The resolved block map (block id → content), abstracting the Block
BTree resolution of §4.3. -/
structure BlockStore where
  blocks : List (Nat × BlockContent)

def lookupBlock (bs : BlockStore) (bid : Nat) : Option BlockContent :=
  (bs.blocks.find? (fun p => p.1 == bid)).map (fun p => p.2)

inductive BlockError where
  | blockNotFound
  | truncatedBlock
deriving DecidableEq

/-- The payload of `bid` when it resolves to a data block. -/
def dataPayload (bs : BlockStore) (bid : Nat) : Option (List Nat) :=
  match lookupBlock bs bid with
  | some (.data bytes) => some bytes
  | _ => none

/-- Modelled from the spec (§4.3): resolve each listed block id and
concatenate the payloads in order; fails if an id is missing or does
not refer to a data block. -/
def readChainPayloads (bs : BlockStore) : List Nat → Option (List Nat)
  | [] => some []
  | bid :: rest =>
    match dataPayload bs bid with
    | some bytes =>
      match readChainPayloads bs rest with
      | some tl => some (bytes ++ tl)
      | none => none
    | none => none

/-- Modelled from the spec (§4.3): `readBlock` for a block whose
logical size exceeds one physical block follows the internal chain —
the first block holds the list of subsequent block ids, their payloads
are concatenated in order, and the total reconstructed length must
equal the declared logical size or the read fails with
`TruncatedBlockError`.  The engine's implementation is not in the
source tree. -/
def readBlock (bs : BlockStore) (firstId logicalSize : Nat) :
    Except BlockError (List Nat) :=
  match lookupBlock bs firstId with
  | none => .error .blockNotFound
  | some (.data bytes) =>
    if bytes.length = logicalSize then .ok bytes else .error .truncatedBlock
  | some (.chain ids) =>
    match readChainPayloads bs ids with
    | none => .error .blockNotFound
    | some bytes =>
      if bytes.length = logicalSize then .ok bytes else .error .truncatedBlock

/-! ## Definitions: HeapOnNode (spec §4.4) -/

/-- One page-like segment of a Heap-on-Node: its raw bytes and its
allocation table, a list of offsets where item `i` occupies the byte
range from `offsets[i]` to `offsets[i+1]`. -/
structure HNSegment where
  offsets : List Nat
  bytes : List Nat

/-- A Heap-on-Node instance: its segments in order. -/
structure HeapOnNode where
  segments : List HNSegment

inductive HeapError where
  | heapIndexOutOfRange
deriving DecidableEq

/-- Modelled from the spec (§4.4): `getHeapItem` splits the heap id
into (segment index, item index), looks the byte range up in the
segment's allocation table and returns that view of the segment's
bytes; an index beyond the allocation table's length fails with
`HeapIndexOutOfRangeError`.  The engine's implementation is not in the
source tree. -/
def getHeapItem (hn : HeapOnNode) (segIdx itemIdx : Nat) :
    Except HeapError (List Nat) :=
  match hn.segments[segIdx]? with
  | none => .error .heapIndexOutOfRange
  | some seg =>
    match seg.offsets[itemIdx]?, seg.offsets[itemIdx + 1]? with
    | some s, some e => .ok ((seg.bytes.drop s).take (e - s))
    | _, _ => .error .heapIndexOutOfRange

/-- Allocation-table sanity for a segment: offsets are monotone and
stay within the segment's bytes. -/
def segWF (seg : HNSegment) : Prop :=
  seg.offsets.Pairwise (· ≤ ·) ∧ ∀ e ∈ seg.offsets, e ≤ seg.bytes.length

/-! ## Definitions: NamedPropertyMap (spec §4.7) -/

/-- One entry record of the named-property map: the property-set GUID,
the name-or-numeric-id, and the generated property tag. -/
structure NPEntry where
  guid : Nat
  nameOrId : Nat
  tag : Nat
deriving DecidableEq

/-- Modelled from the spec (§4.7): the named-property map's entry
records plus the bucket count of its bucket index. -/
structure NamedPropertyMap where
  bucketCount : Nat
  entries : List NPEntry

inductive NamedPropError where
  | namedPropertyNotFound
deriving DecidableEq

/-- The bucket an entry hashes into. -/
def npBucketOf (hash : Nat → Nat → Nat) (m : NamedPropertyMap) (g n : Nat) : Nat :=
  hash g n % m.bucketCount

/-- Modelled from the spec (§4.7): the probe list for a lookup — the
entries whose hash falls in the queried pair's bucket, in stream
order. -/
def npBucket (hash : Nat → Nat → Nat) (m : NamedPropertyMap) (g n : Nat) :
    List NPEntry :=
  m.entries.filter
    (fun e => npBucketOf hash m e.guid e.nameOrId == npBucketOf hash m g n)

/-- Modelled from the spec (§4.7): `resolve(guid, nameOrId)` hashes
the pair, probes the bucket's entry list, confirms by exact match and
returns the entry's tag; fails with `NamedPropertyNotFoundError` when
absent.  The engine's implementation is not in the source tree. -/
def npResolve (hash : Nat → Nat → Nat) (m : NamedPropertyMap) (g n : Nat) :
    Except NamedPropError Nat :=
  match (npBucket hash m g n).find? (fun e => e.guid == g && e.nameOrId == n) with
  | some e => .ok e.tag
  | none => .error .namedPropertyNotFound

/-- Modelled from the spec (§4.7): `reverseResolve(tag)` scans the
entry records for the tag and returns the (GUID, name-or-id) pair, or
nothing when the tag is not a named property. -/
def npReverseResolve (m : NamedPropertyMap) (tag : Nat) : Option (Nat × Nat) :=
  match m.entries.find? (fun e => e.tag == tag) with
  | some e => some (e.guid, e.nameOrId)
  | none => none

/-- Map sanity: no two entries share a (GUID, name-or-id) pair, and no
two entries share a generated tag (the mapping is bidirectional). -/
def npWF (m : NamedPropertyMap) : Prop :=
  (m.entries.map fun e => (e.guid, e.nameOrId)).Nodup ∧
    (m.entries.map fun e => e.tag).Nodup

/-! ## Definitions: TableContext (spec §4.6) -/

/-- A column definition: tag, fixed-cell offset, fixed-cell width. -/
structure TColumn where
  tag : Nat
  offset : Nat
  width : Nat

/-- Modelled from the spec (§4.6): a table descriptor — the column
definitions and the row-index heap item, one fixed-width row record
per logical row in row order.  The engine's TableContext is not in the
source tree. -/
structure TableContext where
  columns : List TColumn
  rowWidth : Nat
  rowBytes : List Nat

/-- Decode one fixed-width row record into (column tag, raw cell
bytes) pairs via the column offsets and widths. -/
def decodeRecord (tc : TableContext) (record : List Nat) :
    List (Nat × List Nat) :=
  tc.columns.map (fun c => (c.tag, (record.drop c.offset).take c.width))

/-- Modelled from the spec (§4.6): `rowCount()` — the number of
fixed-width records the row-index heap item holds. -/
def rowCount (tc : TableContext) : Nat := tc.rowBytes.length / tc.rowWidth

/-- Modelled from the spec (§4.6): `row(i)` — decode the `i`-th
fixed-width record. -/
def rowAt (tc : TableContext) (i : Nat) : List (Nat × List Nat) :=
  decodeRecord tc ((tc.rowBytes.drop (i * tc.rowWidth)).take tc.rowWidth)

/-- Modelled from the spec (§4.6): the `rows()` iterator — a cursor
walks the row-index heap item, emitting one decoded record per step
while a full record remains; the fuel argument only bounds the
recursion and is passed as the row count. -/
def rowsFrom (tc : TableContext) : Nat → Nat → List (List (Nat × List Nat))
  | _, 0 => []
  | cursor, fuel + 1 =>
    if cursor + tc.rowWidth ≤ tc.rowBytes.length then
      decodeRecord tc ((tc.rowBytes.drop cursor).take tc.rowWidth) ::
        rowsFrom tc (cursor + tc.rowWidth) fuel
    else []

/-- Modelled from the spec (§4.6): `rows()` — run the iterator from
the initial cursor. -/
def rows (tc : TableContext) : List (List (Nat × List Nat)) :=
  rowsFrom tc 0 (rowCount tc)

/-! ## Definitions: BTreeIndex (spec §4.2) -/

/-- A B-tree page: a leaf page holds sorted (key, record) pairs; an
internal page holds sorted (key, child-page-reference) pairs, the key
being the least key reachable through that child. -/
inductive BTPage where
  | leaf (entries : List (Nat × Nat))
  | node (entries : List (Nat × Nat))
deriving DecidableEq

/-- The page graph a BTreeIndex is fed: page id → page.  Arbitrary —
it may contain dangling references or cycles. -/
structure BTreeStore where
  pages : List (Nat × BTPage)

def lookupPage (st : BTreeStore) (pid : Nat) : Option BTPage :=
  (st.pages.find? (fun p => p.1 == pid)).map (fun p => p.2)

/-- Search within a leaf page (functionally equal to the binary search
of §4.2 on a sorted page): the record of the first entry carrying the
key. -/
def leafFind (key : Nat) : List (Nat × Nat) → Option Nat
  | [] => none
  | (k, r) :: rest => if k == key then some r else leafFind key rest

/-- Child choice within an internal page (functionally equal to the
binary search of §4.2 on a sorted page): the child of the last entry
whose key is ≤ the search key. -/
def chooseChild (key : Nat) : List (Nat × Nat) → Option Nat
  | [] => none
  | (k, c) :: rest =>
    if key < k then none
    else
      match chooseChild key rest with
      | some c2 => some c2
      | none => some c

inductive FindResult where
  | found (record : Nat)
  | notFound
  | indexCorrupt
deriving DecidableEq

/-- Modelled from the spec (§4.2, §5): depth-bounded descent.  `fuel`
is the maximum number of pages the descent may visit, derived from the
header-recorded depth; exhausting it (or hitting a dangling page
reference) yields `IndexCorruptError` instead of descending further.
Returns the result together with the number of pages visited.  The
engine's implementation is not in the source tree. -/
def btFindTrace (st : BTreeStore) : Nat → Nat → Nat → FindResult × Nat
  | 0, _, _ => (.indexCorrupt, 0)
  | fuel + 1, pid, key =>
    match lookupPage st pid with
    | none => (.indexCorrupt, 1)
    | some (.leaf entries) =>
      match leafFind key entries with
      | some r => (.found r, 1)
      | none => (.notFound, 1)
    | some (.node entries) =>
      match chooseChild key entries with
      | none => (.notFound, 1)
      | some child =>
        let res := btFindTrace st fuel child key
        (res.1, res.2 + 1)

/-- Modelled from the spec (§4.2): `find(key)` with the given
page-visit budget. -/
def btFind (st : BTreeStore) (fuel pid key : Nat) : FindResult :=
  (btFindTrace st fuel pid key).1

/-- A crafted page graph on which descent can never reach a leaf for
`key` (for instance a cycle of internal pages covering `key`): every
page is internal and always offers a child for `key`. -/
def alwaysDescends (st : BTreeStore) (key : Nat) : Bool :=
  st.pages.all (fun p =>
    match p.2 with
    | .node entries => (chooseChild key entries).isSome
    | .leaf _ => false)

/-- `k` is below the optional exclusive upper bound. -/
def belowHi (k : Nat) (hi : Option Nat) : Bool :=
  match hi with
  | none => true
  | some b => decide (k < b)

/-- Leaf entries strictly increasing and within [lo, hi). -/
def entriesSorted (lo : Nat) (hi : Option Nat) : List (Nat × Nat) → Bool
  | [] => true
  | (k, _) :: rest => decide (lo ≤ k) && belowHi k hi && entriesSorted (k + 1) hi rest

/-- Internal-page entries strictly increasing within [lo, hi), each
child well-formed (via `F`) on its key interval: entry `(k, c)`
covers keys from `k` up to the next entry's key (or the parent's upper
bound for the last entry). -/
def kidsWF (F : Nat → Nat → Option Nat → Bool) :
    List (Nat × Nat) → Nat → Option Nat → Bool
  | [], _, _ => true
  | (k, c) :: rest, lo, hi =>
    decide (lo ≤ k) && belowHi k hi &&
      (match rest with
       | [] => F c k hi
       | (k2, _) :: _ => F c k (some k2)) &&
      kidsWF F rest (k + 1) hi

/-- Modelled from the spec (§4.2 invariants): page `pid` roots a
well-formed subtree of uniform height `h` (leaves at height 0) whose
keys are strictly increasing and lie in [lo, hi). -/
def pageWF (st : BTreeStore) : Nat → Nat → Nat → Option Nat → Bool
  | 0, pid, lo, hi =>
    match lookupPage st pid with
    | some (.leaf entries) => entriesSorted lo hi entries
    | _ => false
  | h + 1, pid, lo, hi =>
    match lookupPage st pid with
    | some (.node entries) =>
      kidsWF (fun c lo2 hi2 => pageWF st h c lo2 hi2) entries lo hi
    | _ => false

/-- Concatenation of the flattenings of an internal page's children. -/
def kidsFlatten (F : Nat → List (Nat × Nat)) :
    List (Nat × Nat) → List (Nat × Nat)
  | [] => []
  | (_, c) :: rest => F c ++ kidsFlatten F rest

/-- The leaf records of the subtree of height `h` rooted at `pid`, in
page order. -/
def flattenPage (st : BTreeStore) : Nat → Nat → List (Nat × Nat)
  | 0, pid =>
    match lookupPage st pid with
    | some (.leaf entries) => entries
    | _ => []
  | h + 1, pid =>
    match lookupPage st pid with
    | some (.node entries) => kidsFlatten (fun c => flattenPage st h c) entries
    | _ => []

/-- The reference in-memory map over the same leaf records:
association-list lookup by key. -/
def refMapLookup (records : List (Nat × Nat)) (key : Nat) : Option Nat :=
  match records.find? (fun p => p.1 == key) with
  | some p => some p.2
  | none => none

/-- Lift a reference-map lookup outcome to the lookup result type. -/
def optToResult : Option Nat → FindResult
  | some r => .found r
  | none => .notFound

/-! ## Theorems: C1 — demo hex node-id conversion -/

theorem replace0x_cons2 (c c2 : Char) (t : List Char) :
    replace0x (c :: c2 :: t) =
      if c == '0' && c2 == 'x' then replace0x t else c :: replace0x (c2 :: t) := rfl

theorem replace0X_cons2 (c c2 : Char) (t : List Char) :
    replace0X (c :: c2 :: t) =
      if c == '0' && c2 == 'X' then replace0X t else c :: replace0X (c2 :: t) := rfl

theorem has0x_cons2 (c c2 : Char) (t : List Char) :
    has0x (c :: c2 :: t) = ((c == '0' && c2 == 'x') || has0x (c2 :: t)) := rfl

theorem has0X_cons2 (c c2 : Char) (t : List Char) :
    has0X (c :: c2 :: t) = ((c == '0' && c2 == 'X') || has0X (c2 :: t)) := rfl

theorem replace0x_eq_self : ∀ s : List Char, has0x s = false → replace0x s = s := by
  intro s
  induction s using replace0x.induct with
  | case1 => intro; rfl
  | case2 c => intro; rfl
  | case3 c c2 rest hcond ih =>
    intro h
    simp only [has0x, Bool.or_eq_false_iff] at h
    exact absurd hcond (by simp [h.1])
  | case4 c c2 rest hcond ih =>
    intro h
    simp only [has0x, Bool.or_eq_false_iff] at h
    simp only [replace0x, if_neg hcond]
    rw [ih h.2]

theorem replace0X_eq_self : ∀ s : List Char, has0X s = false → replace0X s = s := by
  intro s
  induction s using replace0X.induct with
  | case1 => intro; rfl
  | case2 c => intro; rfl
  | case3 c c2 rest hcond ih =>
    intro h
    simp only [has0X, Bool.or_eq_false_iff] at h
    exact absurd hcond (by simp [h.1])
  | case4 c c2 rest hcond ih =>
    intro h
    simp only [has0X, Bool.or_eq_false_iff] at h
    simp only [replace0X, if_neg hcond]
    rw [ih h.2]

theorem has0x_cons (c : Char) (t : List Char) (hc : ¬ c = '0') (h : has0x t = false) :
    has0x (c :: t) = false := by
  cases t with
  | nil => rfl
  | cons c2 rest => simp [has0x, hc, h]

theorem has0X_cons (c : Char) (t : List Char) (hc : ¬ c = '0') (h : has0X t = false) :
    has0X (c :: t) = false := by
  cases t with
  | nil => rfl
  | cons c2 rest => simp [has0X, hc, h]

/-- C1 (amended): example.py's conversion removes every occurrence of
`0x` and then every occurrence of `0X`; on a string whose remainder
contains neither substring, this coincides with stripping one leading
`0x`/`0X` prefix (and leaves a prefix-free string unchanged). -/
theorem nodeIdHex_strips_leading (t : List Char)
    (h1 : has0x t = false) (h2 : has0X t = false) :
    nodeIdHex ('0' :: 'x' :: t) = t ∧ nodeIdHex ('0' :: 'X' :: t) = t ∧
      nodeIdHex t = t := by
  refine ⟨?_, ?_, ?_⟩
  · show replace0X (replace0x ('0' :: 'x' :: t)) = t
    have e1 : replace0x ('0' :: 'x' :: t) = replace0x t := by
      rw [replace0x_cons2, if_pos (show ('0' == '0' && 'x' == 'x') = true by decide)]
    rw [e1, replace0x_eq_self t h1, replace0X_eq_self t h2]
  · show replace0X (replace0x ('0' :: 'X' :: t)) = t
    have hX : has0x ('X' :: t) = false := has0x_cons 'X' t (by decide) h1
    have e1 : replace0x ('0' :: 'X' :: t) = '0' :: 'X' :: t := by
      rw [replace0x_cons2, if_neg (show ¬ ('0' == '0' && 'X' == 'x') = true by decide),
        replace0x_eq_self ('X' :: t) hX]
    rw [e1]
    have e2 : replace0X ('0' :: 'X' :: t) = replace0X t := by
      rw [replace0X_cons2, if_pos (show ('0' == '0' && 'X' == 'X') = true by decide)]
    rw [e2, replace0X_eq_self t h2]
  · rw [show nodeIdHex t = replace0X (replace0x t) from rfl,
      replace0x_eq_self t h1, replace0X_eq_self t h2]

/-- Witness for C1's amended theorem at the concrete remainder `122`. -/
theorem nodeIdHex_strips_leading_witness :
    nodeIdHex ['0', 'x', '1', '2', '2'] = ['1', '2', '2'] :=
  (nodeIdHex_strips_leading ['1', '2', '2'] (by decide) (by decide)).1

/-- C1 counterexample: on input `a0x1` (which has no leading `0x`/`0X`
prefix, so the claim requires the conversion to leave it unchanged),
the code removes the interior occurrence and yields `a1`. -/
theorem nodeIdHex_removes_interior_occurrence :
    nodeIdHex ['a', '0', 'x', '1'] = ['a', '1'] ∧
      nodeIdHex ['a', '0', 'x', '1'] ≠ ['a', '0', 'x', '1'] :=
  ⟨by decide, by decide⟩

/-! ## Theorems: C9 — demo per-row exception handling -/

theorem exploreRows_cons (q : DemoRow) (rows : List DemoRow) :
    exploreRows (q :: rows) =
      match q.id with
      | none => exploreRows rows
      | some _ => if q.raises then exploreRows rows else exploreRows rows + 1 := rfl

/-- C9: the demo's row loop counts exactly the rows that carry an id
and were processed without an exception, and a raising row is caught
per row: the loop's result on any table equals its result with that
row removed, so traversal continues over the remaining rows. -/
theorem exploreRows_catches_per_row (rows xs ys : List DemoRow) (r : DemoRow)
    (hr : r.raises = true) :
    exploreRows rows =
        (rows.filter fun q => q.id.isSome && !q.raises).length ∧
      exploreRows (xs ++ r :: ys) = exploreRows (xs ++ ys) := by
  constructor
  · induction rows with
    | nil => rfl
    | cons q rest ih =>
      cases hq : q.id with
      | none => simp [exploreRows, hq, List.filter, ih]
      | some v =>
        cases hraises : q.raises with
        | true => simp [exploreRows, hq, hraises, List.filter, ih]
        | false => simp [exploreRows, hq, hraises, List.filter, ih]
  · induction xs with
    | nil =>
      simp only [List.nil_append]
      rw [exploreRows_cons]
      cases hq : r.id with
      | none => rfl
      | some v => simp [hr]
    | cons q rest ih =>
      rw [List.cons_append, List.cons_append, exploreRows_cons, exploreRows_cons, ih]

/-- Witness for C9 on a concrete table: three rows where the middle
one raises; the counter is 2 and the raising row drops out. -/
theorem exploreRows_catches_per_row_witness :
    exploreRows [⟨some 5, false⟩, ⟨some 6, true⟩, ⟨some 7, false⟩] =
        (([⟨some 5, false⟩, ⟨some 6, true⟩, ⟨some 7, false⟩] : List DemoRow).filter
          fun q => q.id.isSome && !q.raises).length ∧
      exploreRows ([⟨some 5, false⟩] ++ ⟨some 6, true⟩ :: [⟨some 7, false⟩]) =
        exploreRows ([⟨some 5, false⟩] ++ [⟨some 7, false⟩]) :=
  exploreRows_catches_per_row [⟨some 5, false⟩, ⟨some 6, true⟩, ⟨some 7, false⟩]
    [⟨some 5, false⟩] [⟨some 7, false⟩] ⟨some 6, true⟩ rfl

/-! ## Theorems: C10 — demo subject display -/

/-- C10: the demo prints `(no subject)` when the `0x0037` entry is
absent or falsy; a subject whose string form exceeds 60 characters is
truncated to its first 60 characters plus `...`; otherwise the full
string form is printed. -/
theorem formatSubject_spec (v : PyVal) :
    formatSubject none = String.toList "(no subject)" ∧
      (v.truthy = false → formatSubject (some v) = String.toList "(no subject)") ∧
      (v.truthy = true → v.toStr.length > 60 →
        formatSubject (some v) = v.toStr.take 60 ++ String.toList "...") ∧
      (v.truthy = true → v.toStr.length ≤ 60 →
        formatSubject (some v) = v.toStr) := by
  refine ⟨rfl, ?_, ?_, ?_⟩
  · intro h; simp [formatSubject, h]
  · intro ht hlen; simp [formatSubject, ht, hlen]
  · intro ht hlen; simp [formatSubject, ht, Nat.not_lt.mpr hlen]

/-- Witness for C10 at a concrete truthy 61-character subject and the
absent case. -/
theorem formatSubject_spec_witness :
    formatSubject none = String.toList "(no subject)" ∧
      formatSubject (some ⟨true, List.replicate 61 'a'⟩) =
        List.replicate 60 'a' ++ String.toList "..." := by
  constructor
  · exact (formatSubject_spec ⟨true, []⟩).1
  · have h := (formatSubject_spec ⟨true, List.replicate 61 'a'⟩).2.2.1 rfl (by decide)
    rw [h]
    decide

/-! ## Theorems: C7 — EntryId validation and round-trip -/

/-- C7: `resolveEntryId` fails with `ForeignEntryIdError` on every
EntryId whose embedded GUID differs from the open store's GUID, and
succeeds on the EntryId derived from any NodeId of the open store,
returning exactly that NodeId. -/
theorem resolveEntryId_spec (store : StoreHeader) (e : EntryId) (n : Nat)
    (hg : e.guid ≠ store.storeGuid) (hn : n < 4294967296) :
    resolveEntryId store e = .error .foreignEntryId ∧
      resolveEntryId store (entryIdOfNode store.storeGuid n) = .ok n := by
  constructor
  · simp [resolveEntryId, hg]
  · have hdec : decodeLE (encodeLE32 n) = n := by
      simp only [encodeLE32, decodeLE]
      omega
    simp [resolveEntryId, entryIdOfNode, hdec]

/-- Witness for C7: a foreign EntryId against a store with GUID 42,
and the round-trip of NodeId 0x122. -/
theorem resolveEntryId_spec_witness :
    resolveEntryId ⟨42⟩ ⟨[0, 0, 0, 0], 7, []⟩ = .error .foreignEntryId ∧
      resolveEntryId ⟨42⟩ (entryIdOfNode 42 290) = .ok 290 :=
  resolveEntryId_spec ⟨42⟩ ⟨[0, 0, 0, 0], 7, []⟩ 290 (by decide) (by decide)

/-! ## Theorems: C8 — chained block reconstruction -/

theorem readChainPayloads_eq (bs : BlockStore) :
    ∀ ids : List Nat, (∀ bid ∈ ids, (dataPayload bs bid).isSome = true) →
      readChainPayloads bs ids =
        some (ids.map fun bid => (dataPayload bs bid).getD []).flatten := by
  intro ids
  induction ids with
  | nil => intro; rfl
  | cons bid rest ih =>
    intro h
    have hbid : (dataPayload bs bid).isSome = true := h bid (by simp)
    obtain ⟨bytes, hbytes⟩ := Option.isSome_iff_exists.mp hbid
    have hrest := ih (fun b hb => h b (by simp [hb]))
    simp only [readChainPayloads, hbytes, hrest, List.map_cons, List.flatten_cons,
      Option.getD_some]

/-- C8: for a chained block (the first block lists the subsequent
block ids, all resolving to data blocks), `readBlock` returns the
in-order concatenation of the listed blocks' payloads exactly when its
total length equals the declared logical size, and fails with
`TruncatedBlockError` when the reconstructed length differs. -/
theorem readBlock_chain_spec (bs : BlockStore) (firstId logicalSize : Nat)
    (ids : List Nat)
    (hfirst : lookupBlock bs firstId = some (.chain ids))
    (hall : ∀ bid ∈ ids, (dataPayload bs bid).isSome = true) :
    ((ids.map fun bid => (dataPayload bs bid).getD []).flatten.length = logicalSize →
        readBlock bs firstId logicalSize =
          .ok (ids.map fun bid => (dataPayload bs bid).getD []).flatten) ∧
      ((ids.map fun bid => (dataPayload bs bid).getD []).flatten.length ≠ logicalSize →
        readBlock bs firstId logicalSize = .error .truncatedBlock) := by
  have hchain := readChainPayloads_eq bs ids hall
  constructor
  · intro hlen
    simp only [readBlock, hfirst, hchain, hlen, if_pos]
  · intro hlen
    simp only [readBlock, hfirst, hchain, if_neg hlen]

/-- Witness for C8: a two-block chain whose payloads concatenate to 5
bytes, read back at declared size 5 and at a wrong size 4. -/
theorem readBlock_chain_spec_witness :
    readBlock ⟨[(1, .chain [2, 3]), (2, .data [10, 20]), (3, .data [30, 40, 50])]⟩ 1 5 =
        .ok [10, 20, 30, 40, 50] ∧
      readBlock ⟨[(1, .chain [2, 3]), (2, .data [10, 20]), (3, .data [30, 40, 50])]⟩ 1 4 =
        .error .truncatedBlock := by
  constructor
  · have h := (readBlock_chain_spec
      ⟨[(1, .chain [2, 3]), (2, .data [10, 20]), (3, .data [30, 40, 50])]⟩ 1 5 [2, 3]
      (by decide) (by decide)).1 (by decide)
    rw [h]
    rfl
  · exact (readBlock_chain_spec
      ⟨[(1, .chain [2, 3]), (2, .data [10, 20]), (3, .data [30, 40, 50])]⟩ 1 4 [2, 3]
      (by decide) (by decide)).2 (by decide)

/-! ## Theorems: C5 — HeapOnNode allocation ranges -/

theorem offsets_le (seg : HNSegment) (hwf : segWF seg) (i j : Nat) (a b : Nat)
    (hij : i ≤ j) (ha : seg.offsets[i]? = some a) (hb : seg.offsets[j]? = some b) :
    a ≤ b := by
  obtain ⟨hi, hgi⟩ := List.getElem?_eq_some.mp ha
  obtain ⟨hj, hgj⟩ := List.getElem?_eq_some.mp hb
  rcases Nat.lt_or_ge i j with hlt | hge
  · have := List.pairwise_iff_getElem.mp hwf.1 i j hi hj hlt
    omega
  · have hieq : i = j := Nat.le_antisymm hij hge
    subst hieq
    rw [hgi] at hgj
    omega

/-- C5: for every heap id listed in a segment's allocation table,
`getHeapItem` returns a byte range whose length is the table's
end-offset minus start-offset; ranges of two distinct ids within one
segment never overlap; and an item index beyond the allocation table's
length fails with `HeapIndexOutOfRangeError`. -/
theorem getHeapItem_spec (hn : HeapOnNode) (segIdx : Nat) (seg : HNSegment)
    (hseg : hn.segments[segIdx]? = some seg) (hwf : segWF seg) :
    (∀ i s e, seg.offsets[i]? = some s → seg.offsets[i + 1]? = some e →
      ∃ item, getHeapItem hn segIdx i = .ok item ∧ item.length = e - s) ∧
      (∀ i j si ei sj ej x, i < j →
        seg.offsets[i]? = some si → seg.offsets[i + 1]? = some ei →
        seg.offsets[j]? = some sj → seg.offsets[j + 1]? = some ej →
        si ≤ x → x < ei → ¬ (sj ≤ x ∧ x < ej)) ∧
      (∀ i, seg.offsets.length ≤ i + 1 →
        getHeapItem hn segIdx i = .error .heapIndexOutOfRange) := by
  refine ⟨?_, ?_, ?_⟩
  · intro i s e hs he
    refine ⟨(seg.bytes.drop s).take (e - s), ?_, ?_⟩
    · simp only [getHeapItem, hseg, hs, he]
    · have hse : s ≤ e := offsets_le seg hwf i (i + 1) s e (by omega) hs he
      have hmem : e ∈ seg.offsets := by
        obtain ⟨hj, hgj⟩ := List.getElem?_eq_some.mp he
        exact hgj ▸ List.getElem_mem hj
      have hlen : e ≤ seg.bytes.length := hwf.2 e hmem
      simp only [List.length_take, List.length_drop]
      omega
  · intro i j si ei sj ej x hij hsi hei hsj hej hx1 hx2
    have : ei ≤ sj := offsets_le seg hwf (i + 1) j ei sj (by omega) hei hsj
    omega
  · intro i hi
    have hnone : seg.offsets[i + 1]? = none := List.getElem?_eq_none hi
    cases h0 : seg.offsets[i]? with
    | none => simp [getHeapItem, hseg, h0, hnone]
    | some s => simp [getHeapItem, hseg, h0, hnone]

/-- Witness for C5 on a concrete heap: one segment with allocation
table offsets [0, 2, 5] over 6 bytes; item 0 is 2 bytes, items 0 and 1
are disjoint, and item 2 is out of range. -/
theorem getHeapItem_spec_witness :
    (∃ item, getHeapItem ⟨[⟨[0, 2, 5], [9, 8, 7, 6, 5, 4]⟩]⟩ 0 0 = .ok item ∧
        item.length = 2 - 0) ∧
      ¬ (2 ≤ 1 ∧ (1 : Nat) < 5) ∧
      getHeapItem ⟨[⟨[0, 2, 5], [9, 8, 7, 6, 5, 4]⟩]⟩ 0 2 =
        .error .heapIndexOutOfRange := by
  have h := getHeapItem_spec ⟨[⟨[0, 2, 5], [9, 8, 7, 6, 5, 4]⟩]⟩ 0
    ⟨[0, 2, 5], [9, 8, 7, 6, 5, 4]⟩ rfl
    (by constructor
        · decide
        · intro e he; fin_cases he <;> decide)
  exact ⟨h.1 0 0 2 rfl rfl,
    h.2.1 0 1 0 2 2 5 1 (by omega) rfl rfl rfl rfl (by omega) (by omega),
    h.2.2 2 (by decide)⟩

/-! ## Theorems: C4 — NamedPropertyMap round-trip -/

/-- C4: for every entry present in a named-property map (no duplicate
pairs or tags), `resolve(guid, name)` returns that entry's tag and
`reverseResolve` of the returned tag yields the original (guid, name)
pair; for every pair absent from the map, `resolve` fails with
`NamedPropertyNotFoundError` and hence never returns a tag belonging
to a different entry. -/
theorem npResolve_roundTrip (hash : Nat → Nat → Nat) (m : NamedPropertyMap)
    (hwf : npWF m) :
    (∀ e ∈ m.entries,
      npResolve hash m e.guid e.nameOrId = .ok e.tag ∧
        npReverseResolve m e.tag = some (e.guid, e.nameOrId)) ∧
      (∀ g n, (∀ e ∈ m.entries, ¬ (e.guid = g ∧ e.nameOrId = n)) →
        npResolve hash m g n = .error .namedPropertyNotFound) := by
  constructor
  · intro e he
    constructor
    · have hbucket : e ∈ npBucket hash m e.guid e.nameOrId := by
        simp only [npBucket, List.mem_filter]
        exact ⟨he, by simp⟩
      have hpred : (fun x => x.guid == e.guid && x.nameOrId == e.nameOrId) e = true := by
        simp
      have hsome : ((npBucket hash m e.guid e.nameOrId).find?
          (fun x => x.guid == e.guid && x.nameOrId == e.nameOrId)).isSome := by
        rw [List.find?_isSome]
        exact ⟨e, hbucket, hpred⟩
      obtain ⟨e2, he2⟩ := Option.isSome_iff_exists.mp hsome
      have hmem : e2 ∈ m.entries := by
        have := List.mem_of_find?_eq_some he2
        simp only [npBucket, List.mem_filter] at this
        exact this.1
      have hpred2 := List.find?_some he2
      simp only [Bool.and_eq_true, beq_iff_eq] at hpred2
      have heq : e2 = e :=
        List.inj_on_of_nodup_map hwf.1 hmem he (by simp [hpred2.1, hpred2.2])
      simp only [npResolve, he2, heq]
    · have hsome : (m.entries.find? (fun x => x.tag == e.tag)).isSome := by
        rw [List.find?_isSome]
        exact ⟨e, he, by simp⟩
      obtain ⟨e2, he2⟩ := Option.isSome_iff_exists.mp hsome
      have hmem : e2 ∈ m.entries := List.mem_of_find?_eq_some he2
      have hpred2 := List.find?_some he2
      simp only [beq_iff_eq] at hpred2
      have heq : e2 = e :=
        List.inj_on_of_nodup_map hwf.2 hmem he (by simp [hpred2])
      simp only [npReverseResolve, he2, heq]
  · intro g n habs
    have hnone : (npBucket hash m g n).find?
        (fun x => x.guid == g && x.nameOrId == n) = none := by
      rw [List.find?_eq_none]
      intro x hx
      have hmem : x ∈ m.entries := by
        simp only [npBucket, List.mem_filter] at hx
        exact hx.1
      simp only [Bool.and_eq_true, beq_iff_eq, not_and]
      intro h1 h2
      exact absurd ⟨h1, h2⟩ (habs x hmem)
    simp only [npResolve, hnone]

/-- Witness for C4 on a concrete two-entry map with bucket count 2 and
a concrete hash: resolving (1, 2) yields tag 10, reverse-resolving 10
yields (1, 2), and the absent pair (9, 9) fails. -/
theorem npResolve_roundTrip_witness :
    npResolve (fun g n => g + n) ⟨2, [⟨1, 2, 10⟩, ⟨3, 4, 20⟩]⟩ 1 2 = .ok 10 ∧
      npReverseResolve ⟨2, [⟨1, 2, 10⟩, ⟨3, 4, 20⟩]⟩ 10 = some (1, 2) ∧
      npResolve (fun g n => g + n) ⟨2, [⟨1, 2, 10⟩, ⟨3, 4, 20⟩]⟩ 9 9 =
        .error .namedPropertyNotFound := by
  have h := npResolve_roundTrip (fun g n => g + n) ⟨2, [⟨1, 2, 10⟩, ⟨3, 4, 20⟩]⟩
    (by constructor <;> decide)
  exact ⟨(h.1 ⟨1, 2, 10⟩ (by decide)).1, (h.1 ⟨1, 2, 10⟩ (by decide)).2,
    h.2 9 9 (by decide)⟩

/-! ## Theorems: C6 — TableContext rows are restartable -/

theorem rowsFrom_eq_map (tc : TableContext) (hw : 0 < tc.rowWidth) :
    ∀ fuel i, i + fuel = rowCount tc →
      rowsFrom tc (i * tc.rowWidth) fuel =
        (List.range fuel).map (fun j => rowAt tc (i + j)) := by
  intro fuel
  induction fuel with
  | zero => intro i h; rfl
  | succ f ih =>
    intro i h
    have hcount : i + 1 ≤ rowCount tc := by omega
    have hmul : (i + 1) * tc.rowWidth ≤ tc.rowBytes.length :=
      (Nat.le_div_iff_mul_le hw).mp hcount
    have hcond : i * tc.rowWidth + tc.rowWidth ≤ tc.rowBytes.length := by
      rw [Nat.succ_mul] at hmul
      exact hmul
    rw [show rowsFrom tc (i * tc.rowWidth) (f + 1) =
        (if i * tc.rowWidth + tc.rowWidth ≤ tc.rowBytes.length then
          decodeRecord tc ((tc.rowBytes.drop (i * tc.rowWidth)).take tc.rowWidth) ::
            rowsFrom tc (i * tc.rowWidth + tc.rowWidth) f
        else []) from rfl]
    rw [if_pos hcond]
    rw [List.range_succ_eq_map, List.map_cons, List.map_map]
    congr 1
    rw [show i * tc.rowWidth + tc.rowWidth = (i + 1) * tc.rowWidth from
      (Nat.succ_mul i tc.rowWidth).symm]
    rw [ih (i + 1) (by omega)]
    apply List.map_congr_left
    intro j hj
    simp only [Function.comp_apply]
    rw [show i + 1 + j = i + (j + 1) by omega]

/-- C6: the `rows()` iterator started from the initial cursor produces
exactly the sequence `row(0), row(1), …, row(rowCount − 1)` derived
independently by random access — so any two calls against the same
node produce identical ordered output — and `rowCount()` equals the
number of rows produced. -/
theorem rows_restartable (tc : TableContext) (hw : 0 < tc.rowWidth) :
    rows tc = (List.range (rowCount tc)).map (rowAt tc) ∧
      (rows tc).length = rowCount tc := by
  have h0 := rowsFrom_eq_map tc hw (rowCount tc) 0 (by omega)
  rw [Nat.zero_mul] at h0
  have hmap : rows tc = (List.range (rowCount tc)).map (rowAt tc) := by
    rw [rows, h0]
    apply List.map_congr_left
    intro j hj
    rw [Nat.zero_add]
  exact ⟨hmap, by rw [hmap, List.length_map, List.length_range]⟩

/-- Witness for C6 on a concrete two-row table (row width 2 over 4
bytes, one single-byte column). -/
theorem rows_restartable_witness :
    rows ⟨[⟨7, 0, 1⟩], 2, [1, 2, 3, 4]⟩ =
        (List.range (rowCount ⟨[⟨7, 0, 1⟩], 2, [1, 2, 3, 4]⟩)).map
          (rowAt ⟨[⟨7, 0, 1⟩], 2, [1, 2, 3, 4]⟩) ∧
      (rows ⟨[⟨7, 0, 1⟩], 2, [1, 2, 3, 4]⟩).length =
        rowCount ⟨[⟨7, 0, 1⟩], 2, [1, 2, 3, 4]⟩ :=
  rows_restartable ⟨[⟨7, 0, 1⟩], 2, [1, 2, 3, 4]⟩ (by decide)

/-! ## Theorems: C3 — depth-bounded descent -/

theorem lookupPage_mem (st : BTreeStore) (pid : Nat) (page : BTPage)
    (h : lookupPage st pid = some page) : (pid, page) ∈ st.pages := by
  unfold lookupPage at h
  cases hf : st.pages.find? (fun p => p.1 == pid) with
  | none => rw [hf] at h; simp at h
  | some p =>
    rw [hf] at h
    simp only [Option.map_some'] at h
    have hp := List.find?_some hf
    have hm := List.mem_of_find?_eq_some hf
    simp only [beq_iff_eq] at hp
    have : p = (pid, page) := by
      obtain ⟨a, b⟩ := p
      simp only at hp h
      injection h with h2
      rw [hp, h2]
    rwa [this] at hm

/-- C3: descent is depth-bounded and total — on any page graph it
visits at most `fuel` pages (the header-declared maximum depth), and
on a crafted malformed graph in which no descent for `key` can reach a
leaf (for instance a cycle of internal pages covering `key`) it
returns `IndexCorruptError` instead of descending forever. -/
theorem btFind_depth_bounded (st : BTreeStore) (fuel pid key : Nat) :
    (btFindTrace st fuel pid key).2 ≤ fuel ∧
      (alwaysDescends st key = true → btFind st fuel pid key = .indexCorrupt) := by
  induction fuel generalizing pid with
  | zero => exact ⟨Nat.le_refl 0, fun _ => rfl⟩
  | succ f ih =>
    constructor
    · cases hlp : lookupPage st pid with
      | none => simp [btFindTrace, hlp]
      | some page =>
        cases page with
        | leaf entries =>
          cases hlf : leafFind key entries <;> simp [btFindTrace, hlp, hlf]
        | node entries =>
          cases hcc : chooseChild key entries with
          | none => simp [btFindTrace, hlp, hcc]
          | some child =>
            have hb := (ih child).1
            simp only [btFindTrace, hlp, hcc]
            omega
    · intro hdesc
      cases hlp : lookupPage st pid with
      | none => simp [btFind, btFindTrace, hlp]
      | some page =>
        have hmem := lookupPage_mem st pid page hlp
        have hall := List.all_eq_true.mp hdesc (pid, page) hmem
        cases page with
        | leaf es => simp at hall
        | node es =>
          have hall2 : (chooseChild key es).isSome = true := hall
          obtain ⟨child, hcc⟩ := Option.isSome_iff_exists.mp hall2
          have := (ih child).2 hdesc
          simp only [btFind, btFindTrace, hlp, hcc]
          exact this

/-- Witness for C3: a two-page cycle of internal pages; with declared
depth 3 the lookup of key 5 visits at most 3 pages and reports
`IndexCorruptError`. -/
theorem btFind_depth_bounded_witness :
    (btFindTrace ⟨[(0, .node [(0, 1)]), (1, .node [(0, 0)])]⟩ 3 0 5).2 ≤ 3 ∧
      btFind ⟨[(0, .node [(0, 1)]), (1, .node [(0, 0)])]⟩ 3 0 5 = .indexCorrupt :=
  ⟨(btFind_depth_bounded ⟨[(0, .node [(0, 1)]), (1, .node [(0, 0)])]⟩ 3 0 5).1,
    (btFind_depth_bounded ⟨[(0, .node [(0, 1)]), (1, .node [(0, 0)])]⟩ 3 0 5).2
      (by decide)⟩

/-! ## Theorems: C2 — BTree lookup refines the reference sorted map -/

theorem pageWF_zero (st : BTreeStore) (pid lo : Nat) (hi : Option Nat) :
    pageWF st 0 pid lo hi =
      match lookupPage st pid with
      | some (.leaf entries) => entriesSorted lo hi entries
      | _ => false := rfl

theorem pageWF_succ (st : BTreeStore) (h pid lo : Nat) (hi : Option Nat) :
    pageWF st (h + 1) pid lo hi =
      match lookupPage st pid with
      | some (.node entries) =>
        kidsWF (fun c lo2 hi2 => pageWF st h c lo2 hi2) entries lo hi
      | _ => false := rfl

theorem flattenPage_zero (st : BTreeStore) (pid : Nat) :
    flattenPage st 0 pid =
      match lookupPage st pid with
      | some (.leaf entries) => entries
      | _ => [] := rfl

theorem flattenPage_succ (st : BTreeStore) (h pid : Nat) :
    flattenPage st (h + 1) pid =
      match lookupPage st pid with
      | some (.node entries) => kidsFlatten (fun c => flattenPage st h c) entries
      | _ => [] := rfl

theorem kidsWF_cons (F : Nat → Nat → Option Nat → Bool) (k c lo : Nat)
    (hi : Option Nat) (rest : List (Nat × Nat)) :
    kidsWF F ((k, c) :: rest) lo hi =
      (decide (lo ≤ k) && belowHi k hi &&
        (match rest with
         | [] => F c k hi
         | (k2, _) :: _ => F c k (some k2)) &&
        kidsWF F rest (k + 1) hi) := rfl

theorem kidsFlatten_cons (F : Nat → List (Nat × Nat)) (k c : Nat)
    (rest : List (Nat × Nat)) :
    kidsFlatten F ((k, c) :: rest) = F c ++ kidsFlatten F rest := rfl

theorem belowHi_mono (a b : Nat) (hi : Option Nat) (hab : a ≤ b)
    (h : belowHi b hi = true) : belowHi a hi = true := by
  cases hi with
  | none => rfl
  | some bound => simp only [belowHi, decide_eq_true_eq] at h ⊢; omega

theorem entriesSorted_bounds :
    ∀ (l : List (Nat × Nat)) (lo : Nat) (hi : Option Nat),
      entriesSorted lo hi l = true → ∀ p ∈ l, lo ≤ p.1 ∧ belowHi p.1 hi = true := by
  intro l
  induction l with
  | nil => intro lo hi _ p hp; cases hp
  | cons e rest ih =>
    intro lo hi h p hp
    obtain ⟨k, r⟩ := e
    simp only [entriesSorted, Bool.and_eq_true, decide_eq_true_eq] at h
    rcases List.mem_cons.mp hp with heq | hp2
    · rw [heq]
      exact ⟨h.1.1, h.1.2⟩
    · have := ih (k + 1) hi h.2 p hp2
      exact ⟨by omega, this.2⟩

theorem leafFind_eq_none (key : Nat) :
    ∀ l : List (Nat × Nat), (∀ p ∈ l, ¬ p.1 = key) → leafFind key l = none := by
  intro l
  induction l with
  | nil => intro; rfl
  | cons e rest ih =>
    intro h
    obtain ⟨k, r⟩ := e
    have hk : (k == key) = false := by
      simpa using h (k, r) (by simp)
    simp only [leafFind, hk, Bool.false_eq_true, if_false]
    exact ih (fun p hp => h p (by simp [hp]))

theorem leafFind_append_some (key : Nat) (a b : List (Nat × Nat)) (r : Nat)
    (h : leafFind key a = some r) : leafFind key (a ++ b) = some r := by
  induction a with
  | nil => simp [leafFind] at h
  | cons e rest ih =>
    obtain ⟨k, v⟩ := e
    by_cases hk : (k == key) = true
    · simp only [leafFind, if_pos hk] at h
      simp only [List.cons_append, leafFind, if_pos hk]
      exact h
    · simp only [leafFind, if_neg hk] at h
      simp only [List.cons_append, leafFind, if_neg hk]
      exact ih h

theorem leafFind_append_none (key : Nat) (a b : List (Nat × Nat))
    (h : leafFind key a = none) : leafFind key (a ++ b) = leafFind key b := by
  induction a with
  | nil => rfl
  | cons e rest ih =>
    obtain ⟨k, v⟩ := e
    by_cases hk : (k == key) = true
    · simp only [leafFind, if_pos hk] at h
      simp at h
    · simp only [leafFind, if_neg hk] at h
      simp only [List.cons_append, leafFind, if_neg hk]
      exact ih h

theorem chooseChild_cons (key k c : Nat) (rest : List (Nat × Nat)) :
    chooseChild key ((k, c) :: rest) =
      if key < k then none
      else
        match chooseChild key rest with
        | some c2 => some c2
        | none => some c := rfl

theorem chooseChild_none_lt (key k c : Nat) (rest : List (Nat × Nat))
    (h : chooseChild key ((k, c) :: rest) = none) : key < k := by
  by_contra hk
  rw [chooseChild_cons, if_neg hk] at h
  cases hcc : chooseChild key rest <;> rw [hcc] at h <;> simp at h

theorem chooseChild_some_le (key k c : Nat) (rest : List (Nat × Nat)) (c2 : Nat)
    (h : chooseChild key ((k, c) :: rest) = some c2) : k ≤ key := by
  by_contra hk
  rw [chooseChild_cons, if_pos (by omega)] at h
  simp at h

theorem kidsWF_self_lo (F : Nat → Nat → Option Nat → Bool) (k2 c2 lo : Nat)
    (hi : Option Nat) (rest2 : List (Nat × Nat))
    (h : kidsWF F ((k2, c2) :: rest2) lo hi = true) :
    kidsWF F ((k2, c2) :: rest2) k2 hi = true := by
  rw [kidsWF_cons] at h ⊢
  simp only [Bool.and_eq_true, decide_eq_true_eq] at h ⊢
  exact ⟨⟨⟨Nat.le_refl k2, h.1.1.2⟩, h.1.2⟩, h.2⟩

theorem leafFind_eq_refMapLookup (key : Nat) :
    ∀ l : List (Nat × Nat), leafFind key l = refMapLookup l key := by
  intro l
  induction l with
  | nil => rfl
  | cons e rest ih =>
    obtain ⟨k, v⟩ := e
    by_cases hk : (k == key) = true
    · simp [leafFind, refMapLookup, List.find?_cons, hk]
    · simp only [leafFind, if_neg hk, refMapLookup, List.find?_cons,
        Bool.not_eq_true] at *
      rw [show (((k, v) : Nat × Nat).1 == key) = false from by simpa using hk]
      exact ih

theorem kids_bounds (st : BTreeStore) (h : Nat)
    (ihp : ∀ pid lo hi, pageWF st h pid lo hi = true →
      ∀ p ∈ flattenPage st h pid, lo ≤ p.1 ∧ belowHi p.1 hi = true) :
    ∀ (es : List (Nat × Nat)) (lo : Nat) (hi : Option Nat),
      kidsWF (fun c lo2 hi2 => pageWF st h c lo2 hi2) es lo hi = true →
      ∀ p ∈ kidsFlatten (fun c => flattenPage st h c) es,
        lo ≤ p.1 ∧ belowHi p.1 hi = true := by
  intro es
  induction es with
  | nil => intro lo hi _ p hp; cases hp
  | cons e rest ih =>
    intro lo hi hwf p hp
    obtain ⟨k, c⟩ := e
    rw [kidsWF_cons] at hwf
    simp only [Bool.and_eq_true, decide_eq_true_eq] at hwf
    obtain ⟨⟨⟨hlok, hkhi⟩, hchild⟩, hrest⟩ := hwf
    rw [kidsFlatten_cons] at hp
    rcases List.mem_append.mp hp with hp1 | hp2
    · cases rest with
      | nil =>
        have hb := ihp c k hi hchild p hp1
        exact ⟨Nat.le_trans hlok hb.1, hb.2⟩
      | cons e2 rest2 =>
        obtain ⟨k2, c2⟩ := e2
        have hb := ihp c k (some k2) hchild p hp1
        have hk2 : k + 1 ≤ k2 ∧ belowHi k2 hi = true := by
          rw [kidsWF_cons] at hrest
          simp only [Bool.and_eq_true, decide_eq_true_eq] at hrest
          exact ⟨hrest.1.1.1, hrest.1.1.2⟩
        have hlt : p.1 < k2 := by simpa [belowHi] using hb.2
        exact ⟨Nat.le_trans hlok hb.1, belowHi_mono p.1 k2 hi (by omega) hk2.2⟩
    · have hb := ih (k + 1) hi hrest p hp2
      exact ⟨by omega, hb.2⟩

theorem flatten_bounds (st : BTreeStore) :
    ∀ (h : Nat) (pid lo : Nat) (hi : Option Nat), pageWF st h pid lo hi = true →
      ∀ p ∈ flattenPage st h pid, lo ≤ p.1 ∧ belowHi p.1 hi = true := by
  intro h
  induction h with
  | zero =>
    intro pid lo hi hwf p hp
    rw [pageWF_zero] at hwf
    rw [flattenPage_zero] at hp
    cases hlp : lookupPage st pid with
    | none => rw [hlp] at hwf; simp at hwf
    | some page =>
      rw [hlp] at hwf hp
      cases page with
      | node es => simp at hwf
      | leaf es => exact entriesSorted_bounds es lo hi hwf p hp
  | succ h ih =>
    intro pid lo hi hwf p hp
    rw [pageWF_succ] at hwf
    rw [flattenPage_succ] at hp
    cases hlp : lookupPage st pid with
    | none => rw [hlp] at hwf; simp at hwf
    | some page =>
      rw [hlp] at hwf hp
      cases page with
      | leaf es => simp at hwf
      | node es => exact kids_bounds st h ih es lo hi hwf p hp

theorem btFind_kids (st : BTreeStore) (key : Nat) (h : Nat)
    (ih : ∀ pid lo hi, pageWF st h pid lo hi = true → belowHi key hi = true →
      btFind st (h + 1) pid key = optToResult (leafFind key (flattenPage st h pid))) :
    ∀ (es : List (Nat × Nat)) (lo : Nat) (hi : Option Nat),
      kidsWF (fun c lo2 hi2 => pageWF st h c lo2 hi2) es lo hi = true →
      belowHi key hi = true →
      (match chooseChild key es with
       | none => FindResult.notFound
       | some c => btFind st (h + 1) c key) =
        optToResult (leafFind key (kidsFlatten (fun c => flattenPage st h c) es)) := by
  intro es
  induction es with
  | nil => intro lo hi _ _; rfl
  | cons e rest ihes =>
    intro lo hi hwf hkey
    obtain ⟨k, c⟩ := e
    rw [kidsWF_cons] at hwf
    simp only [Bool.and_eq_true, decide_eq_true_eq] at hwf
    obtain ⟨⟨⟨hlok, hkhi⟩, hchild⟩, hrest⟩ := hwf
    rw [kidsFlatten_cons]
    by_cases hklt : key < k
    · rw [chooseChild_cons, if_pos hklt]
      have hl1 : leafFind key (flattenPage st h c) = none := by
        apply leafFind_eq_none
        intro p hp
        have hk_le : k ≤ p.1 := by
          cases rest with
          | nil => exact (flatten_bounds st h c k hi hchild p hp).1
          | cons e2 rest2 =>
            obtain ⟨k2, c2⟩ := e2
            exact (flatten_bounds st h c k (some k2) hchild p hp).1
        omega
      have hl2 : leafFind key (kidsFlatten (fun c => flattenPage st h c) rest) = none := by
        apply leafFind_eq_none
        intro p hp
        have := (kids_bounds st h (flatten_bounds st h) rest (k + 1) hi hrest p hp).1
        omega
      rw [leafFind_append_none key _ _ hl1, hl2]
      rfl
    · rw [chooseChild_cons, if_neg hklt]
      cases hcc : chooseChild key rest with
      | some c2 =>
        cases rest with
        | nil => simp [chooseChild] at hcc
        | cons e2 rest2 =>
          obtain ⟨k2, c2x⟩ := e2
          have hk2key : k2 ≤ key := chooseChild_some_le key k2 c2x rest2 c2 hcc
          have hl1 : leafFind key (flattenPage st h c) = none := by
            apply leafFind_eq_none
            intro p hp
            have hb := flatten_bounds st h c k (some k2) hchild p hp
            have hlt : p.1 < k2 := by simpa [belowHi] using hb.2
            omega
          rw [leafFind_append_none key _ _ hl1]
          have h2 := ihes (k + 1) hi hrest hkey
          rw [hcc] at h2
          exact h2
      | none =>
        show btFind st (h + 1) c key = _
        cases rest with
        | nil =>
          have hthis := ih c k hi hchild hkey
          rw [show kidsFlatten (fun c => flattenPage st h c) ([] : List (Nat × Nat)) = []
            from rfl, List.append_nil]
          exact hthis
        | cons e2 rest2 =>
          obtain ⟨k2, c2x⟩ := e2
          have hkey2 : key < k2 := chooseChild_none_lt key k2 c2x rest2 hcc
          have hthis := ih c k (some k2) hchild (by simp [belowHi]; omega)
          have hl2 : leafFind key
              (kidsFlatten (fun c => flattenPage st h c) ((k2, c2x) :: rest2)) = none := by
            apply leafFind_eq_none
            intro p hp
            have hwf2 := kidsWF_self_lo _ k2 c2x (k + 1) hi rest2 hrest
            have := (kids_bounds st h (flatten_bounds st h) ((k2, c2x) :: rest2)
              k2 hi hwf2 p hp).1
            omega
          cases hlf : leafFind key (flattenPage st h c) with
          | some r =>
            rw [leafFind_append_some key _ _ r hlf, hthis, hlf]
          | none =>
            rw [leafFind_append_none key _ _ hlf, hl2, hthis, hlf]

theorem btFind_eq_flatten (st : BTreeStore) (key : Nat) :
    ∀ (h : Nat) (pid lo : Nat) (hi : Option Nat),
      pageWF st h pid lo hi = true → belowHi key hi = true →
      btFind st (h + 1) pid key = optToResult (leafFind key (flattenPage st h pid)) := by
  intro h
  induction h with
  | zero =>
    intro pid lo hi hwf hkey
    rw [pageWF_zero] at hwf
    rw [flattenPage_zero]
    cases hlp : lookupPage st pid with
    | none => rw [hlp] at hwf; simp at hwf
    | some page =>
      rw [hlp] at hwf
      cases page with
      | node es => simp at hwf
      | leaf es =>
        show (btFindTrace st (0 + 1) pid key).1 = _
        simp only [btFindTrace, hlp]
        cases hlf : leafFind key es with
        | some r => simp [hlf, optToResult]
        | none => simp [hlf, optToResult]
  | succ h ih =>
    intro pid lo hi hwf hkey
    rw [pageWF_succ] at hwf
    rw [flattenPage_succ]
    cases hlp : lookupPage st pid with
    | none => rw [hlp] at hwf; simp at hwf
    | some page =>
      rw [hlp] at hwf
      cases page with
      | leaf es => simp at hwf
      | node es =>
        have hstep : btFind st (h + 1 + 1) pid key =
            (match chooseChild key es with
             | none => FindResult.notFound
             | some c => btFind st (h + 1) c key) := by
          show (btFindTrace st (h + 1 + 1) pid key).1 = _
          simp only [btFindTrace, hlp]
          cases hcc : chooseChild key es with
          | none => rfl
          | some child => rfl
        rw [hstep]
        exact btFind_kids st key h ih es lo hi hwf hkey

/-- C2: on every well-formed B-tree page graph (sorted pages, uniform
height, key intervals respected — the §4.2 invariants), `find(key)`
with the header-derived page budget agrees with the reference
in-memory map built from the same leaf records: every key present
yields its record, every absent key yields `NotFound`. -/
theorem btFind_refines_refMap (st : BTreeStore) (h root key : Nat)
    (hwf : pageWF st h root 0 none = true) :
    btFind st (h + 1) root key =
      optToResult (refMapLookup (flattenPage st h root) key) := by
  have hmain := btFind_eq_flatten st key h root 0 none hwf rfl
  rw [hmain, leafFind_eq_refMapLookup]

/-- Witness for C2 on a concrete two-level tree: root page 10 over
leaves 11 and 12; lookups of a present and an absent key. -/
theorem btFind_refines_refMap_witness :
    (btFind ⟨[(10, .node [(1, 11), (5, 12)]), (11, .leaf [(1, 100), (3, 300)]),
        (12, .leaf [(5, 500)])]⟩ 2 10 3 =
      optToResult (refMapLookup (flattenPage ⟨[(10, .node [(1, 11), (5, 12)]),
        (11, .leaf [(1, 100), (3, 300)]), (12, .leaf [(5, 500)])]⟩ 1 10) 3)) ∧
      (btFind ⟨[(10, .node [(1, 11), (5, 12)]), (11, .leaf [(1, 100), (3, 300)]),
        (12, .leaf [(5, 500)])]⟩ 2 10 4 =
        optToResult (refMapLookup (flattenPage ⟨[(10, .node [(1, 11), (5, 12)]),
          (11, .leaf [(1, 100), (3, 300)]), (12, .leaf [(5, 500)])]⟩ 1 10) 4)) :=
  ⟨btFind_refines_refMap ⟨[(10, .node [(1, 11), (5, 12)]),
      (11, .leaf [(1, 100), (3, 300)]), (12, .leaf [(5, 500)])]⟩ 1 10 3 (by decide),
    btFind_refines_refMap ⟨[(10, .node [(1, 11), (5, 12)]),
      (11, .leaf [(1, 100), (3, 300)]), (12, .leaf [(5, 500)])]⟩ 1 10 4 (by decide)⟩

end Pst
